import Mathlib

/-!
Verification development for the ChatNugget/Chatbot repository.

The repository ships an OpenWebUI + Ollama + Pipelines deployment of an
NL-to-SQL pipeline (routing a natural-language question to a SQLite
database, generating a read-only statement, validating it with a SQL
Guard, executing it under row bounds), together with a UI customization
script (`openwebui-custom/custom.js`) and start scripts
(`start_gpu_auto.sh`). The pipeline's Python core
(`pipelines/10_sqlite_router_nl2sql.py`) is not part of the source
snapshot, so its components (SQL Guard, Database Router, Execution
Engine) are modelled here from the specification's description of their
behaviour; the UI script and the shell script are embedded from their
sources.

SQL text is embedded as `List Char` (the character sequence of the
statement).
-/

/-- Character class used for word-boundary detection in the SQL Guard:
letters, digits and underscore form words; everything else is a
boundary. -/
def isWordChar (c : Char) : Bool := c.isAlphanum || c == '_'

/-- Lowercases every character of a character sequence. -/
def toLowerStr (s : List Char) : List Char := s.map Char.toLower

/-- Dropping a prefix never lengthens a list. -/
theorem dropWhile_length_le (p : Char → Bool) :
    ∀ l : List Char, (l.dropWhile p).length ≤ l.length
  | [] => Nat.le_refl _
  | c :: cs => by
    by_cases h : p c
    · simp only [List.dropWhile_cons, h, if_true, List.length_cons]
      exact Nat.le_succ_of_le (dropWhile_length_le p cs)
    · simp [List.dropWhile_cons, h]

/-- Fuelled worker for `splitWords`; any `fuel ≥ length` is exact. -/
def splitWordsFuel (p : Char → Bool) : Nat → List Char → List (List Char)
  | 0, _ => []
  | _, [] => []
  | fuel + 1, c :: cs =>
    if p c then
      (c :: cs.takeWhile p) :: splitWordsFuel p fuel (cs.dropWhile p)
    else
      splitWordsFuel p fuel cs

/-- Splits a character sequence into its maximal runs of characters
satisfying `p` (the "words" of the text); characters outside such runs
are discarded. -/
def splitWords (p : Char → Bool) (s : List Char) : List (List Char) :=
  splitWordsFuel p s.length s

/-- The words of a SQL text: maximal runs of word characters. -/
def wordsOf (s : List Char) : List (List Char) := splitWords isWordChar s

/-!
## SQL Guard

Modelled from the spec: the SQL Guard of
`pipelines/10_sqlite_router_nl2sql.py` is not in the source snapshot.
Its rules are taken from §4.5 of the specification, applied in order:
(1) the first keyword after stripping leading whitespace/comments must
be `SELECT` or `WITH`; (2) no blocked keyword may occur as a standalone
word (word-boundary match, case-insensitive); (3) at most one statement
(no semicolon outside a string literal); (4) the LIMIT clamp.  Per §9
the guard is a static textual (regex/keyword) check, so the "outer
query level" LIMIT clause is modelled as the statement's trailing
`LIMIT <number>` clause.
-/

/-- Modelled from the spec: the Guard's blocked-keyword list of §4.5
rule 2, in lowercase. -/
def blockedKeywords : List (List Char) :=
  ["insert", "update", "delete", "drop", "alter", "create", "replace",
   "truncate", "attach", "detach", "pragma", "vacuum", "reindex"].map String.toList

/-- Modelled from the spec: the Guard's word-boundary, case-insensitive
blocked-keyword test (§4.5 rule 2). -/
def hasBlockedKeyword (s : List Char) : Bool :=
  (wordsOf s).any (fun w => blockedKeywords.contains (toLowerStr w))

/-- Consumes the remainder of a `--` line comment, returning the text
after the terminating newline. -/
def skipLineComment : List Char → List Char
  | [] => []
  | '\n' :: r => r
  | _ :: r => skipLineComment r

/-- Consumes the remainder of a `/* ... */` block comment, returning
the text after the closing delimiter. -/
def skipBlockComment : List Char → List Char
  | [] => []
  | '*' :: '/' :: r => r
  | _ :: r => skipBlockComment r

/-- Fuelled worker for `stripLeading`: repeatedly removes leading
whitespace and leading SQL comments. -/
def stripLeadFuel : Nat → List Char → List Char
  | 0, s => s
  | Nat.succ fuel, s =>
    match s.dropWhile Char.isWhitespace with
    | '-' :: '-' :: r => stripLeadFuel fuel (skipLineComment r)
    | '/' :: '*' :: r => stripLeadFuel fuel (skipBlockComment r)
    | s1 => s1

/-- Modelled from the spec: stripping of leading whitespace and
comments before the first-keyword check (§4.5 rule 1). -/
def stripLeading (s : List Char) : List Char := stripLeadFuel s.length s

/-- The first keyword of a statement: the run of word characters that
begins the comment-stripped text, lowercased. -/
def firstKeyword (s : List Char) : List Char :=
  toLowerStr ((stripLeading s).takeWhile isWordChar)

/-- Modelled from the spec: §4.5 rule 1, the statement must begin with
`SELECT` or `WITH`. -/
def startsOk (s : List Char) : Bool :=
  firstKeyword s == "select".toList || firstKeyword s == "with".toList

/-- Worker for the multiple-statement test: scans the text with an
in-string-literal flag and reports a semicolon seen outside a string
literal. -/
def semiOutsideFrom : Bool → List Char → Bool
  | _, [] => false
  | inStr, c :: r =>
    if c == '\'' then semiOutsideFrom (!inStr) r
    else if c == ';' && !inStr then true
    else semiOutsideFrom inStr r

/-- Modelled from the spec: §4.5 rule 3, a semicolon anywhere outside a
string literal means more than one statement. -/
def hasSemicolonOutside (s : List Char) : Bool := semiOutsideFrom false s

/-- Numeric value of a little-endian (least significant first) run of
decimal digit characters. -/
def natOfRevDigits : List Char → Nat
  | [] => 0
  | c :: cs => (c.toNat - 48) + 10 * natOfRevDigits cs

/-- Little-endian decimal digits (least significant first) of `n`; the
fuel argument bounds the recursion and any `fuel ≥ n` is exact. -/
def natDigitsRev : Nat → Nat → List Char
  | 0, _ => []
  | fuel + 1, n => if n = 0 then [] else Nat.digitChar (n % 10) :: natDigitsRev fuel (n / 10)

/-- Decimal rendering of a natural number as digit characters, most
significant first. -/
def natToDigits (n : Nat) : List Char :=
  if n = 0 then ['0'] else (natDigitsRev n n).reverse

/-- Parses a trailing `LIMIT <number>` clause from an already reversed
statement: optional trailing whitespace, a digit run, whitespace, the
keyword `limit` (case-insensitive) ending a word. -/
def parseRevLimit (r0 : List Char) : Option Nat :=
  if ((r0.dropWhile Char.isWhitespace).takeWhile Char.isDigit) = [] then none
  else if (((r0.dropWhile Char.isWhitespace).dropWhile Char.isDigit).takeWhile
      Char.isWhitespace) = [] then none
  else if toLowerStr (((((r0.dropWhile Char.isWhitespace).dropWhile
      Char.isDigit).dropWhile Char.isWhitespace)).takeWhile isWordChar) = "timil".toList then
    some (natOfRevDigits ((r0.dropWhile Char.isWhitespace).takeWhile Char.isDigit))
  else none

/-- Modelled from the spec: detection of the outer-level `LIMIT` clause
(§4.5 rule 4), read as the statement's trailing `LIMIT <number>`
clause; returns its value when present. -/
def parseTrailingLimit (s : List Char) : Option Nat := parseRevLimit s.reverse

/-- The text appended by the Guard when a statement has no outer
`LIMIT` clause. -/
def limitSuffix (n : Nat) : List Char :=
  ' ' :: 'L' :: 'I' :: 'M' :: 'I' :: 'T' :: ' ' :: natToDigits n

/-- Rewrites the value of the trailing `LIMIT` clause to `v`, keeping
the text before the clause's number unchanged. -/
def replaceTrailingLimit (s : List Char) (v : Nat) : List Char :=
  ((s.reverse.dropWhile Char.isWhitespace).dropWhile Char.isDigit).reverse ++ natToDigits v

/-- Modelled from the spec: §4.5 rule 4, the LIMIT clamp.  With no
outer `LIMIT`, append `LIMIT dflt`; with an outer `LIMIT` above `hard`,
rewrite it to `hard`; otherwise leave the text unchanged. -/
def clampTrailingLimit (dflt hard : Nat) (s : List Char) : List Char :=
  match parseTrailingLimit s with
  | none => s ++ limitSuffix dflt
  | some n => if hard < n then replaceTrailingLimit s hard else s

/-- Reason a statement is rejected, naming the Guard rule that fired. -/
inductive RejectReason where
  | notSelect
  | blockedKeyword
  | multipleStatements
deriving DecidableEq

/-- Verdict of the SQL Guard: either the normalized (LIMIT-adjusted)
text, or a rejection reason. -/
inductive SafetyVerdict where
  | ok (normalizedSql : List Char)
  | rejected (reason : RejectReason)
deriving DecidableEq

/-- Whether a verdict accepts the statement. -/
def SafetyVerdict.accepted : SafetyVerdict → Bool
  | .ok _ => true
  | .rejected _ => false

/-- Modelled from the spec: the SQL Guard of §4.5, applying rules 1-3
in order as hard rejects and rule 4 as the LIMIT clamp on a passing
statement. -/
def sqlGuard (dflt hard : Nat) (s : List Char) : SafetyVerdict :=
  if !startsOk s then .rejected .notSelect
  else if hasBlockedKeyword s then .rejected .blockedKeyword
  else if hasSemicolonOutside s then .rejected .multipleStatements
  else .ok (clampTrailingLimit dflt hard s)

/-!
## List-scanning helper lemmas
-/

/-- A list all of whose elements satisfy `p` is its own `takeWhile`. -/
theorem tw_all (p : Char → Bool) :
    ∀ l : List Char, (∀ c ∈ l, p c = true) → l.takeWhile p = l
  | [], _ => rfl
  | c :: cs, h => by
    have hc : p c = true := h c (List.mem_cons_self c cs)
    simp only [List.takeWhile_cons, hc, if_true]
    rw [tw_all p cs (fun x hx => h x (List.mem_cons_of_mem c hx))]

/-- A list whose head fails `p` (or which is empty) is untouched by
`dropWhile`. -/
theorem dw_head (p : Char → Bool) :
    ∀ l : List Char, (∀ x, l.head? = some x → p x = false) → l.dropWhile p = l
  | [], _ => rfl
  | c :: cs, h => by
    have hc : p c = false := h c rfl
    simp [List.dropWhile_cons, hc]

/-- `takeWhile` over a run satisfying `p` followed by a failing head
returns exactly the run. -/
theorem tw_app (p : Char → Bool) :
    ∀ l1 l2 : List Char, (∀ c ∈ l1, p c = true) →
      (∀ x, l2.head? = some x → p x = false) → (l1 ++ l2).takeWhile p = l1
  | [], l2, _, h2 => by
    cases l2 with
    | nil => rfl
    | cons c cs => simp [List.takeWhile_cons, h2 c rfl]
  | c :: cs, l2, h1, h2 => by
    have hc : p c = true := h1 c (List.mem_cons_self c cs)
    simp only [List.cons_append, List.takeWhile_cons, hc, if_true]
    rw [tw_app p cs l2 (fun x hx => h1 x (List.mem_cons_of_mem c hx)) h2]

/-- `dropWhile` over a run satisfying `p` followed by a failing head
returns exactly the remainder. -/
theorem dw_app (p : Char → Bool) :
    ∀ l1 l2 : List Char, (∀ c ∈ l1, p c = true) →
      (∀ x, l2.head? = some x → p x = false) → (l1 ++ l2).dropWhile p = l2
  | [], l2, _, h2 => dw_head p l2 h2
  | c :: cs, l2, h1, h2 => by
    have hc : p c = true := h1 c (List.mem_cons_self c cs)
    simp only [List.cons_append, List.dropWhile_cons, hc, if_true]
    exact dw_app p cs l2 (fun x hx => h1 x (List.mem_cons_of_mem c hx)) h2

/-- When the first list holds a failing element, `dropWhile` of the
concatenation stops inside the first list. -/
theorem dw_app_exists (p : Char → Bool) :
    ∀ l1 l2 : List Char, (∃ c ∈ l1, p c = false) →
      (l1 ++ l2).dropWhile p = l1.dropWhile p ++ l2
  | [], _, h => by simp at h
  | c :: cs, l2, h => by
    by_cases hc : p c
    · simp only [List.cons_append, List.dropWhile_cons, hc, if_true]
      rcases h with ⟨x, hx, hpx⟩
      rcases List.mem_cons.mp hx with rfl | hx'
      · rw [hc] at hpx; cases hpx
      · exact dw_app_exists p cs l2 ⟨x, hx', hpx⟩
    · simp [List.dropWhile_cons, hc]

/-- `dropWhile` keeps the last element when that element fails `p`. -/
theorem dw_getLast (p : Char → Bool) :
    ∀ l : List Char, ∀ x, l.getLast? = some x → p x = false →
      (l.dropWhile p).getLast? = some x
  | [], x, h, _ => by cases h
  | [c], x, h, hp => by
    simp only [List.getLast?_singleton, Option.some.injEq] at h
    subst h
    simp [List.dropWhile_cons, hp]
  | c :: d :: l, x, h, hp => by
    have h' : (d :: l).getLast? = some x := by
      rw [← h]; simp [List.getLast?_cons_cons]
    by_cases hc : p c
    · rw [List.dropWhile_cons, if_pos hc]
      exact dw_getLast p (d :: l) x h' hp
    · rw [List.dropWhile_cons, if_neg hc, List.getLast?_cons_cons, h']

/-- A run of word characters at the very start of the text, delimited
on the right, is the first word. -/
theorem wordsOf_head_fuel (fuel : Nat) (k b : List Char) (hk : k ≠ [])
    (hkw : ∀ c ∈ k, isWordChar c = true)
    (hb : ∀ x, b.head? = some x → isWordChar x = false) :
    k ∈ splitWordsFuel isWordChar (fuel + 1) (k ++ b) := by
  cases k with
  | nil => exact absurd rfl hk
  | cons c k' =>
    have hc : isWordChar c = true := hkw c (List.mem_cons_self c k')
    have htw : (k' ++ b).takeWhile isWordChar = k' :=
      tw_app isWordChar k' b (fun x hx => hkw x (List.mem_cons_of_mem c hx)) hb
    simp only [List.cons_append, splitWordsFuel, List.append_eq, hc, if_true, htw]
    exact List.mem_cons_self _ _

/-- Fuelled form of the word-boundary lemma: a run of word characters
delimited by non-word characters (or the ends of the text) on both
sides is among the words of the text. -/
theorem mem_splitWordsFuel_decomp :
    ∀ (fuel : Nat) (a k b : List Char), (a ++ k ++ b).length ≤ fuel → k ≠ [] →
      (∀ c ∈ k, isWordChar c = true) →
      (∀ x, a.getLast? = some x → isWordChar x = false) →
      (∀ x, b.head? = some x → isWordChar x = false) →
      k ∈ splitWordsFuel isWordChar fuel (a ++ k ++ b) := by
  intro fuel
  induction fuel with
  | zero =>
    intro a k b hlen hk hkw ha hb
    exfalso
    apply hk
    simp only [List.length_append, Nat.le_zero, Nat.add_eq_zero] at hlen
    exact List.eq_nil_of_length_eq_zero hlen.1.2
  | succ n ih =>
    intro a k b hlen hk hkw ha hb
    cases a with
    | nil => simpa using wordsOf_head_fuel n k b hk hkw hb
    | cons c a' =>
      by_cases hc : isWordChar c
      · -- the word run containing `c` ends inside `a'`, because the
        -- last character of `a = c :: a'` is a non-word character
        have ha'ne : a' ≠ [] := by
          intro h
          subst h
          have := ha c rfl
          rw [hc] at this
          cases this
        obtain ⟨x, hx⟩ : ∃ x, a'.getLast? = some x := by
          cases a' with
          | nil => exact absurd rfl ha'ne
          | cons y a'' =>
            exact ⟨(y :: a'').getLast (by simp), List.getLast?_eq_getLast_of_ne_nil (by simp)⟩
        have hxa : (c :: a').getLast? = some x := by
          cases a' with
          | nil => exact absurd rfl ha'ne
          | cons y a'' => rw [List.getLast?_cons_cons]; exact hx
        have hxw : isWordChar x = false := ha x hxa
        have hxmem : x ∈ a' := by
          obtain ⟨h, rfl⟩ := List.mem_getLast?_eq_getLast (l := a') (x := x) (by simp [hx])
          exact List.getLast_mem h
        have hdw : (a' ++ (k ++ b)).dropWhile isWordChar
            = a'.dropWhile isWordChar ++ (k ++ b) :=
          dw_app_exists isWordChar a' (k ++ b) ⟨x, hxmem, hxw⟩
        have hlast' : ∀ y, (a'.dropWhile isWordChar).getLast? = some y →
            isWordChar y = false := by
          intro y hy
          have := dw_getLast isWordChar a' x hx hxw
          rw [this] at hy
          injection hy with hy
          subst hy
          exact hxw
        have hlen' : (a'.dropWhile isWordChar ++ k ++ b).length ≤ n := by
          have h1 := dropWhile_length_le isWordChar a'
          simp only [List.length_append, List.length_cons] at hlen ⊢
          omega
        have htail := ih (a'.dropWhile isWordChar) k b hlen' hk hkw hlast' hb
        simp only [List.cons_append, List.append_assoc, splitWordsFuel, List.append_eq, hc,
          if_true, hdw]
        right
        simpa [List.append_assoc] using htail
      · have hbc : isWordChar c = false := by
          cases h : isWordChar c
          · rfl
          · rw [h] at hc; exact absurd rfl hc
        have hlast' : ∀ y, a'.getLast? = some y → isWordChar y = false := by
          intro y hy
          apply ha
          cases a' with
          | nil => cases hy
          | cons z a'' => rw [List.getLast?_cons_cons]; exact hy
        have hlen' : (a' ++ k ++ b).length ≤ n := by
          simp only [List.length_append, List.length_cons] at hlen ⊢
          omega
        have htail := ih a' k b hlen' hk hkw hlast' hb
        simp only [List.cons_append, List.append_assoc, splitWordsFuel, List.append_eq, hbc,
          Bool.false_eq_true, if_false]
        simpa [List.append_assoc] using htail

/-- A run of word characters delimited by non-word characters (or the
ends of the text) on both sides is among the words of the text. -/
theorem mem_wordsOf_decomp (a k b : List Char) (hk : k ≠ [])
    (hkw : ∀ c ∈ k, isWordChar c = true)
    (ha : ∀ x, a.getLast? = some x → isWordChar x = false)
    (hb : ∀ x, b.head? = some x → isWordChar x = false) :
    k ∈ wordsOf (a ++ k ++ b) :=
  mem_splitWordsFuel_decomp (a ++ k ++ b).length a k b (Nat.le_refl _) hk hkw ha hb

/-- Every character of every blocked keyword is a letter. -/
theorem blocked_chars_alpha :
    ∀ w ∈ blockedKeywords, ∀ c ∈ w, c.isAlpha = true := by decide

/-- A character whose lowercase form is a letter is a word character. -/
theorem isWordChar_of_toLower_alpha (c : Char) (h : (Char.toLower c).isAlpha = true) :
    isWordChar c = true := by
  by_cases hc : 65 ≤ c.toNat ∧ c.toNat ≤ 90
  · have hu : c.isUpper = true := by
      simp only [Char.isUpper, Bool.and_eq_true, decide_eq_true_eq]
      exact ⟨hc.1, hc.2⟩
    simp [isWordChar, Char.isAlphanum, Char.isAlpha, hu]
  · have hl : Char.toLower c = c := by
      unfold Char.toLower
      rw [if_neg hc]
    rw [hl] at h
    simp [isWordChar, Char.isAlphanum, h]

/-- C1: a candidate containing a blocked keyword (INSERT, UPDATE,
DELETE, DROP, ALTER, CREATE, REPLACE, TRUNCATE, ATTACH, DETACH, PRAGMA,
VACUUM, REINDEX) as a standalone word — delimited by non-word
characters or the ends of the text, in any case combination and with
any surrounding whitespace — is rejected by the SQL Guard
(`accepted = false`). -/
theorem sqlGuard_rejects_blocked_keyword (dflt hard : Nat) (a k b : List Char)
    (hkw : toLowerStr k ∈ blockedKeywords)
    (ha : ∀ x, a.getLast? = some x → isWordChar x = false)
    (hb : ∀ x, b.head? = some x → isWordChar x = false) :
    (sqlGuard dflt hard (a ++ k ++ b)).accepted = false := by
  have hk : k ≠ [] := by
    intro h
    subst h
    revert hkw
    decide
  have hwc : ∀ c ∈ k, isWordChar c = true := by
    intro c hc
    apply isWordChar_of_toLower_alpha
    exact blocked_chars_alpha (toLowerStr k) hkw _ (List.mem_map_of_mem _ hc)
  have hmem := mem_wordsOf_decomp a k b hk hwc ha hb
  have hblk : hasBlockedKeyword (a ++ k ++ b) = true := by
    unfold hasBlockedKeyword
    rw [List.any_eq_true]
    exact ⟨k, hmem, List.elem_iff.mpr hkw⟩
  unfold sqlGuard
  cases h1 : startsOk (a ++ k ++ b)
  · rfl
  · rw [if_neg (by decide), if_pos hblk]
    rfl

/-- Witness for C1: `"select x DrOp t"` carries `DROP` (mixed case)
as a standalone word, so the Guard rejects it. -/
theorem sqlGuard_rejects_blocked_keyword_witness :
    (sqlGuard 50 1000 ("select x ".toList ++ "DrOp".toList ++ " t".toList)).accepted
      = false :=
  sqlGuard_rejects_blocked_keyword 50 1000 "select x ".toList "DrOp".toList " t".toList
    (by decide) (by decide) (by decide)

/-- C3: the SQL Guard only accepts statements whose first keyword —
after stripping leading whitespace and comments — is `SELECT` or
`WITH`; any other first keyword is rejected before the later rules
run. -/
theorem sqlGuard_accepted_starts_select_or_with (dflt hard : Nat) (s : List Char)
    (hacc : (sqlGuard dflt hard s).accepted = true) :
    firstKeyword s = "select".toList ∨ firstKeyword s = "with".toList := by
  have h1 : startsOk s = true := by
    cases h : startsOk s
    · unfold sqlGuard at hacc
      rw [h] at hacc
      cases hacc
    · rfl
  rcases (Bool.or_eq_true _ _).mp h1 with h | h
  · exact Or.inl (eq_of_beq h)
  · exact Or.inr (eq_of_beq h)

/-- Witness for C3: the Guard accepts `"select 1"`, whose first keyword
is `select`. -/
theorem sqlGuard_accepted_starts_select_or_with_witness :
    (sqlGuard 50 1000 "select 1".toList).accepted = true ∧
      (firstKeyword "select 1".toList = "select".toList ∨
        firstKeyword "select 1".toList = "with".toList) :=
  ⟨by decide, sqlGuard_accepted_starts_select_or_with 50 1000 "select 1".toList (by decide)⟩

/-- The head given by `head?` is a member of the list. -/
theorem head?_mem : ∀ {l : List Char} {x : Char}, l.head? = some x → x ∈ l
  | [], _, h => by cases h
  | c :: cs, x, h => by
    injection h with h
    subst h
    exact List.mem_cons_self c cs

/-- `head?` of a concatenation with a nonempty left part. -/
theorem head?_append_ne_nil :
    ∀ (l1 l2 : List Char), l1 ≠ [] → (l1 ++ l2).head? = l1.head?
  | [], _, h => absurd rfl h
  | _ :: _, _, _ => rfl

/-- A nonempty `takeWhile` means the list starts with a satisfying
character. -/
theorem tw_ne_nil_head (p : Char → Bool) :
    ∀ l : List Char, l.takeWhile p ≠ [] → ∃ c r, l = c :: r ∧ p c = true
  | [], h => absurd rfl h
  | c :: cs, h => by
    by_cases hc : p c
    · exact ⟨c, cs, rfl, hc⟩
    · rw [List.takeWhile_cons, if_neg hc] at h
      exact absurd rfl h

/-- Value of the character of a decimal digit. -/
theorem digitChar_sub : ∀ m < 10, (Nat.digitChar m).toNat - 48 = m := by decide

/-- The character of a decimal digit is a digit character. -/
theorem digitChar_isDigit : ∀ m < 10, (Nat.digitChar m).isDigit = true := by decide

/-- A whitespace character is not a digit. -/
theorem ws_not_digit (c : Char) (h : c.isWhitespace = true) : c.isDigit = false := by
  simp only [Char.isWhitespace, Bool.or_eq_true, decide_eq_true_eq] at h
  rcases h with ((rfl | rfl) | rfl) | rfl <;> decide

/-- A digit character is not whitespace. -/
theorem digit_not_ws (c : Char) (h : c.isDigit = true) : c.isWhitespace = false := by
  cases hw : c.isWhitespace
  · rfl
  · rw [ws_not_digit c hw] at h
    cases h

/-- With enough fuel, `natDigitsRev` is a left inverse of
`natOfRevDigits`. -/
theorem natDigitsRev_val : ∀ fuel n, n ≤ fuel → natOfRevDigits (natDigitsRev fuel n) = n
  | 0, n, h => by
    have : n = 0 := Nat.le_zero.mp h
    subst this
    rfl
  | fuel + 1, n, h => by
    by_cases hn : n = 0
    · subst hn
      rfl
    · have hdiv : n / 10 ≤ fuel := by
        have := Nat.div_lt_self (Nat.pos_of_ne_zero hn) (by norm_num : 1 < 10)
        omega
      simp only [natDigitsRev, hn, if_false, natOfRevDigits]
      rw [natDigitsRev_val fuel (n / 10) hdiv, digitChar_sub (n % 10) (Nat.mod_lt n (by norm_num))]
      exact Nat.mod_add_div n 10

/-- Every character produced by `natDigitsRev` is a digit. -/
theorem natDigitsRev_digit : ∀ fuel n c, c ∈ natDigitsRev fuel n → c.isDigit = true
  | 0, _, _, h => by cases h
  | fuel + 1, n, c, h => by
    by_cases hn : n = 0
    · subst hn
      cases h
    · simp only [natDigitsRev, hn, if_false] at h
      rcases List.mem_cons.mp h with rfl | h'
      · exact digitChar_isDigit (n % 10) (Nat.mod_lt n (by norm_num))
      · exact natDigitsRev_digit fuel (n / 10) c h'

/-- The decimal rendering is never empty. -/
theorem natToDigits_ne_nil (n : Nat) : natToDigits n ≠ [] := by
  unfold natToDigits
  by_cases hn : n = 0
  · simp [hn]
  · simp only [hn, if_false]
    intro h
    rw [List.reverse_eq_nil_iff] at h
    cases n with
    | zero => exact hn rfl
    | succ m =>
      rw [natDigitsRev, if_neg hn] at h
      cases h

/-- Every character of the decimal rendering is a digit. -/
theorem natToDigits_digit (n : Nat) (c : Char) (h : c ∈ natToDigits n) :
    c.isDigit = true := by
  unfold natToDigits at h
  by_cases hn : n = 0
  · rw [hn, if_pos rfl] at h
    rcases List.mem_singleton.mp h with rfl
    decide
  · rw [if_neg hn, List.mem_reverse] at h
    exact natDigitsRev_digit n n c h

/-- Reading back the (reversed) decimal rendering recovers the
number. -/
theorem natOfRevDigits_rev_natToDigits (n : Nat) :
    natOfRevDigits (natToDigits n).reverse = n := by
  unfold natToDigits
  by_cases hn : n = 0
  · subst hn
    rfl
  · rw [if_neg hn, List.reverse_reverse]
    exact natDigitsRev_val n n (Nat.le_refl n)

/-- Appending `LIMIT d` to any text yields a trailing `LIMIT` clause of
value `d` (stated on the reversed text). -/
theorem parseRevLimit_append (d : Nat) (t : List Char) :
    parseRevLimit ((natToDigits d).reverse ++
      (' ' :: 'T' :: 'I' :: 'M' :: 'I' :: 'L' :: ' ' :: t)) = some d := by
  have hdig : ∀ c ∈ (natToDigits d).reverse, Char.isDigit c = true := by
    intro c hc
    exact natToDigits_digit d c (List.mem_reverse.mp hc)
  have hRne : (natToDigits d).reverse ≠ [] := by
    simp [natToDigits_ne_nil d]
  have h1 : ((natToDigits d).reverse ++
      (' ' :: 'T' :: 'I' :: 'M' :: 'I' :: 'L' :: ' ' :: t)).dropWhile Char.isWhitespace
      = (natToDigits d).reverse ++ (' ' :: 'T' :: 'I' :: 'M' :: 'I' :: 'L' :: ' ' :: t) := by
    apply dw_head
    intro x hx
    rw [head?_append_ne_nil _ _ hRne] at hx
    exact digit_not_ws x (hdig x (head?_mem hx))
  have h2 : ((natToDigits d).reverse ++
      (' ' :: 'T' :: 'I' :: 'M' :: 'I' :: 'L' :: ' ' :: t)).takeWhile Char.isDigit
      = (natToDigits d).reverse := by
    apply tw_app _ _ _ hdig
    intro x hx
    injection hx with hx
    subst hx
    decide
  have h3 : ((natToDigits d).reverse ++
      (' ' :: 'T' :: 'I' :: 'M' :: 'I' :: 'L' :: ' ' :: t)).dropWhile Char.isDigit
      = ' ' :: 'T' :: 'I' :: 'M' :: 'I' :: 'L' :: ' ' :: t := by
    apply dw_app _ _ _ hdig
    intro x hx
    injection hx with hx
    subst hx
    decide
  have h4 : (' ' :: 'T' :: 'I' :: 'M' :: 'I' :: 'L' :: ' ' :: t).takeWhile Char.isWhitespace
      = [' '] := rfl
  have h5 : (' ' :: 'T' :: 'I' :: 'M' :: 'I' :: 'L' :: ' ' :: t).dropWhile Char.isWhitespace
      = 'T' :: 'I' :: 'M' :: 'I' :: 'L' :: ' ' :: t := rfl
  have h6 : ('T' :: 'I' :: 'M' :: 'I' :: 'L' :: ' ' :: t).takeWhile isWordChar
      = ['T', 'I', 'M', 'I', 'L'] := rfl
  unfold parseRevLimit
  rw [h1, h2, if_neg hRne, h3, h4, if_neg (by decide), h5, h6,
    if_pos (by decide), natOfRevDigits_rev_natToDigits]

/-- Rewriting the number of an existing trailing `LIMIT` clause to `v`
yields a trailing `LIMIT` clause of value `v`. -/
theorem parseTrailingLimit_replace (s : List Char) (n v : Nat)
    (h : parseTrailingLimit s = some n) :
    parseTrailingLimit (replaceTrailingLimit s v) = some v := by
  unfold parseTrailingLimit parseRevLimit at h
  by_cases h1 : (s.reverse.dropWhile Char.isWhitespace).takeWhile Char.isDigit = []
  · rw [if_pos h1] at h
    cases h
  rw [if_neg h1] at h
  by_cases h2 : ((s.reverse.dropWhile Char.isWhitespace).dropWhile
      Char.isDigit).takeWhile Char.isWhitespace = []
  · rw [if_pos h2] at h
    cases h
  rw [if_neg h2] at h
  by_cases h3 : toLowerStr (((((s.reverse.dropWhile Char.isWhitespace).dropWhile
      Char.isDigit).dropWhile Char.isWhitespace)).takeWhile isWordChar) = "timil".toList
  swap
  · rw [if_neg h3] at h
    cases h
  have hdig : ∀ c ∈ (natToDigits v).reverse, Char.isDigit c = true := by
    intro c hc
    exact natToDigits_digit v c (List.mem_reverse.mp hc)
  have hRne : (natToDigits v).reverse ≠ [] := by
    simp [natToDigits_ne_nil v]
  obtain ⟨w, r1', hr1, hw⟩ := tw_ne_nil_head Char.isWhitespace _ h2
  have hwd : ∀ x, (((s.reverse.dropWhile Char.isWhitespace).dropWhile
      Char.isDigit)).head? = some x → Char.isDigit x = false := by
    intro x hx
    rw [hr1] at hx
    injection hx with hx
    subst hx
    exact ws_not_digit w hw
  have hrev : (replaceTrailingLimit s v).reverse
      = (natToDigits v).reverse ++ ((s.reverse.dropWhile Char.isWhitespace).dropWhile
        Char.isDigit) := by
    unfold replaceTrailingLimit
    rw [List.reverse_append, List.reverse_reverse]
  have hr1ne : ((s.reverse.dropWhile Char.isWhitespace).dropWhile Char.isDigit) ≠ [] := by
    rw [hr1]
    intro hcon
    cases hcon
  have g1 : ((natToDigits v).reverse ++ ((s.reverse.dropWhile Char.isWhitespace).dropWhile
      Char.isDigit)).dropWhile Char.isWhitespace
      = (natToDigits v).reverse ++ ((s.reverse.dropWhile Char.isWhitespace).dropWhile
      Char.isDigit) := by
    apply dw_head
    intro x hx
    rw [head?_append_ne_nil _ _ hRne] at hx
    exact digit_not_ws x (hdig x (head?_mem hx))
  have g2 : ((natToDigits v).reverse ++ ((s.reverse.dropWhile Char.isWhitespace).dropWhile
      Char.isDigit)).takeWhile Char.isDigit = (natToDigits v).reverse :=
    tw_app _ _ _ hdig hwd
  have g3 : ((natToDigits v).reverse ++ ((s.reverse.dropWhile Char.isWhitespace).dropWhile
      Char.isDigit)).dropWhile Char.isDigit
      = ((s.reverse.dropWhile Char.isWhitespace).dropWhile Char.isDigit) :=
    dw_app _ _ _ hdig hwd
  unfold parseTrailingLimit parseRevLimit
  rw [hrev, g1, g2, if_neg hRne, g3, if_neg h2, if_pos h3,
    natOfRevDigits_rev_natToDigits]

/-- An accepting Guard run returns exactly the LIMIT-clamped text. -/
theorem sqlGuard_ok_eq (dflt hard : Nat) (s out : List Char)
    (hacc : sqlGuard dflt hard s = SafetyVerdict.ok out) :
    out = clampTrailingLimit dflt hard s := by
  unfold sqlGuard at hacc
  by_cases h1 : (!startsOk s) = true
  · rw [if_pos h1] at hacc
    cases hacc
  rw [if_neg h1] at hacc
  by_cases h2 : hasBlockedKeyword s = true
  · rw [if_pos h2] at hacc
    cases hacc
  rw [if_neg h2] at hacc
  by_cases h3 : hasSemicolonOutside s = true
  · rw [if_pos h3] at hacc
    cases hacc
  rw [if_neg h3] at hacc
  injection hacc with hacc
  exact hacc.symm

/-- The reversed text after appending the Guard's `LIMIT` suffix. -/
theorem reverse_append_limitSuffix (d : Nat) (s : List Char) :
    (s ++ limitSuffix d).reverse
      = (natToDigits d).reverse
        ++ (' ' :: 'T' :: 'I' :: 'M' :: 'I' :: 'L' :: ' ' :: s.reverse) := by
  rw [List.reverse_append,
    show limitSuffix d = [' ', 'L', 'I', 'M', 'I', 'T', ' '] ++ natToDigits d from rfl,
    List.reverse_append, List.append_assoc]
  rfl

/-- The LIMIT clamp always leaves a trailing `LIMIT` clause whose value
is at most the hard cap. -/
theorem clamp_parse_le (dflt hard : Nat) (hdh : dflt ≤ hard) (s : List Char) :
    ∃ v, parseTrailingLimit (clampTrailingLimit dflt hard s) = some v ∧ v ≤ hard := by
  unfold clampTrailingLimit
  cases hp : parseTrailingLimit s with
  | none =>
    refine ⟨dflt, ?_, hdh⟩
    show parseTrailingLimit (s ++ limitSuffix dflt) = some dflt
    unfold parseTrailingLimit
    rw [reverse_append_limitSuffix]
    exact parseRevLimit_append dflt s.reverse
  | some n =>
    by_cases hlt : hard < n
    · simp only [if_pos hlt]
      exact ⟨hard, parseTrailingLimit_replace s n hard hp, Nat.le_refl hard⟩
    · simp only [if_neg hlt]
      exact ⟨n, hp, by omega⟩

/-- C2: every statement the Guard accepts is returned with exactly one
outer-level `LIMIT` clause — modelled as the statement's trailing
`LIMIT` clause — whose value is at most the hard cap; when the input
has no outer `LIMIT` the Guard appends `LIMIT MAX_ROWS_DEFAULT`, when
its `LIMIT` exceeds `MAX_ROWS_HARD` the Guard rewrites the value to
`MAX_ROWS_HARD`, and when it is within bounds the text is returned
unchanged. -/
theorem sqlGuard_limit_invariant (dflt hard : Nat) (hdh : dflt ≤ hard)
    (s out : List Char) (hacc : sqlGuard dflt hard s = SafetyVerdict.ok out) :
    (∃ v, parseTrailingLimit out = some v ∧ v ≤ hard) ∧
      (parseTrailingLimit s = none → out = s ++ limitSuffix dflt) ∧
      (∀ n, parseTrailingLimit s = some n → hard < n →
        out = replaceTrailingLimit s hard) ∧
      (∀ n, parseTrailingLimit s = some n → n ≤ hard → out = s) := by
  have hout := sqlGuard_ok_eq dflt hard s out hacc
  subst hout
  refine ⟨clamp_parse_le dflt hard hdh s, ?_, ?_, ?_⟩
  · intro hp
    unfold clampTrailingLimit
    rw [hp]
  · intro n hp hlt
    simp only [clampTrailingLimit, hp, if_pos hlt]
  · intro n hp hle
    simp only [clampTrailingLimit, hp, if_neg (show ¬hard < n by omega)]

/-- Witness for C2: the Guard accepts `"select 1"` (no LIMIT) and the
invariant holds for its normalized output `"select 1 LIMIT 50"`. -/
theorem sqlGuard_limit_invariant_witness :
    (50 ≤ 1000 ∧ sqlGuard 50 1000 "select 1".toList
        = SafetyVerdict.ok "select 1 LIMIT 50".toList) ∧
      ((∃ v, parseTrailingLimit "select 1 LIMIT 50".toList = some v ∧ v ≤ 1000) ∧
        (parseTrailingLimit "select 1".toList = none →
          "select 1 LIMIT 50".toList = "select 1".toList ++ limitSuffix 50) ∧
        (∀ n, parseTrailingLimit "select 1".toList = some n → 1000 < n →
          "select 1 LIMIT 50".toList = replaceTrailingLimit "select 1".toList 1000) ∧
        (∀ n, parseTrailingLimit "select 1".toList = some n → n ≤ 1000 →
          "select 1 LIMIT 50".toList = "select 1".toList)) :=
  ⟨⟨by decide, by decide⟩,
    sqlGuard_limit_invariant 50 1000 (by decide) "select 1".toList
      "select 1 LIMIT 50".toList (by decide)⟩

/-!
## Database Router

Modelled from the spec: the Database Router of
`pipelines/10_sqlite_router_nl2sql.py` is not in the source snapshot.
Its algorithm is taken from §4.2 of the specification: tokenize the
question (lowercase, split on non-alphanumeric boundaries), give each
catalog entry a weighted overlap score (identifier match highest, table
name medium, column name low), normalize by token count, select the
highest score with ties broken by the ordering of database identifiers,
route an explicit `DB=<id>` override directly, fall back to the
configured default with confidence 0 when no token scores, and consult
the LLM oracle only on the low-confidence path (leaving the
confidence unchanged).  The `tiebreakApplied` flag of the data model is
not modelled; no claim concerns it.
-/

/-- Descriptor of one table of a catalog database: its name and its
column names. -/
structure TableDescriptor where
  name : List Char
  columns : List (List Char)
deriving DecidableEq

/-- One entry of the Catalog: a database identifier and its tables. -/
structure CatalogEntry where
  id : List Char
  tables : List TableDescriptor
deriving DecidableEq

/-- How a routing decision was reached. -/
inductive RouteMethod where
  | heuristic
  | llmAssisted
deriving DecidableEq

/-- Decision of the Database Router. -/
structure RoutingDecision where
  databaseId : List Char
  confidenceScore : ℚ
  method : RouteMethod
deriving DecidableEq

/-- Modelled from the spec: the Router's question tokenizer —
lowercase, split on non-alphanumeric boundaries (§4.2). -/
def qTokens (q : List Char) : List (List Char) :=
  splitWords Char.isAlphanum (toLowerStr q)

/-- Modelled from the spec: one token's weighted contribution to an
entry's overlap score — identifier match highest, table-name match
medium, column-name match low (§4.2).  Scores are kept as naturals
scaled by 10 (weights 6, 3, 1), so one token contributes at most 10;
the normalized confidence divides by 10 times the token count. -/
def tokenScoreN (e : CatalogEntry) (t : List Char) : Nat :=
  (if toLowerStr e.id = t then 6 else 0)
    + (if e.tables.any (fun tb => toLowerStr tb.name == t) then 3 else 0)
    + (if e.tables.any (fun tb => tb.columns.any (fun c => toLowerStr c == t))
        then 1 else 0)

/-- Modelled from the spec: an entry's summed overlap score over all
question tokens (§4.2), scaled by 10. -/
def entryScoreN (q : List Char) (e : CatalogEntry) : Nat :=
  ((qTokens q).map (tokenScoreN e)).sum

/-- Denominator of the normalized confidence: 10 times the token count
(at least one). -/
def confDenom (q : List Char) : Nat := 10 * ((qTokens q).length.max 1)

/-- Normalized confidence of a scaled score for a question, in
`[0, 1]`. -/
def confOf (q : List Char) (sc : Nat) : ℚ := (sc : ℚ) / (confDenom q : ℚ)

/-- Modelled from the spec: the normalized confidence score of an
entry (§4.2). -/
def confidence (q : List Char) (e : CatalogEntry) : ℚ :=
  confOf q (entryScoreN q e)

/-- Strict lexicographic order on character sequences, used as the
stable deterministic ordering of database identifiers. -/
def lexLt : List Char → List Char → Bool
  | [], [] => false
  | [], _ :: _ => true
  | _ :: _, [] => false
  | a :: as, b :: bs => if a = b then lexLt as bs else decide (a < b)

/-- One step of the best-entry selection: keep the accumulator unless
the next entry scores higher, or ties and has the smaller identifier in
the stable lexicographic order. -/
def pickStep (acc : Option (List Char × Nat)) (x : List Char × Nat) :
    Option (List Char × Nat) :=
  match acc with
  | none => some x
  | some y => if y.2 < x.2 ∨ (x.2 = y.2 ∧ lexLt x.1 y.1 = true) then some x else some y

/-- The selection fold over all scored entries. -/
def pickBest (scored : List (List Char × Nat)) : Option (List Char × Nat) :=
  scored.foldl pickStep none

/-- The heuristic selection step of the Router: the best-scoring
catalog entry with its scaled score. -/
def heurBest (cat : List CatalogEntry) (q : List Char) : Option (List Char × Nat) :=
  pickBest (cat.map (fun e => (e.id, entryScoreN q e)))

/-- Modelled from the spec: extraction of an explicit `DB=<id>`
override from the question — the word following the first `DB=`. -/
def overrideToken : List Char → Option (List Char)
  | 'D' :: 'B' :: '=' :: rest => some (rest.takeWhile isWordChar)
  | _ :: rest => overrideToken rest
  | [] => none

/-- An override is honoured only when it names a known catalog
identifier. -/
def extractOverride (q : List Char) (cat : List CatalogEntry) : Option (List Char) :=
  match overrideToken q with
  | some t => if cat.any (fun e => e.id == t) then some t else none
  | none => none

/-- Modelled from the spec: the LLM-assisted fallback (§4.2) — the
oracle's answer replaces the heuristic identifier only when it names a
known identifier, and the confidence is left unchanged. -/
def routeLlm (oracle : Option (List Char)) (cat : List CatalogEntry)
    (heur : RoutingDecision) : RoutingDecision :=
  match oracle with
  | some ans =>
    if cat.any (fun e => e.id == ans) then
      ⟨ans, heur.confidenceScore, RouteMethod.llmAssisted⟩
    else heur
  | none => heur

/-- Modelled from the spec: the Database Router of §4.2.  `oracle`
abstracts the LLM-assisted fallback's answer (`none` for a timeout or
failure); `fallbackId` is the configured default database. -/
def route (oracle : Option (List Char)) (allowLlm : Bool) (threshold : ℚ)
    (cat : List CatalogEntry) (fallbackId : List Char) (q : List Char) :
    RoutingDecision :=
  match extractOverride q cat with
  | some ov => ⟨ov, 1, RouteMethod.heuristic⟩
  | none =>
    match heurBest cat q with
    | none => ⟨fallbackId, 0, RouteMethod.heuristic⟩
    | some (i, sc) =>
      if sc = 0 then ⟨fallbackId, 0, RouteMethod.heuristic⟩
      else if confOf q sc < threshold ∧ allowLlm = true then
        routeLlm oracle cat ⟨i, confOf q sc, RouteMethod.heuristic⟩
      else ⟨i, confOf q sc, RouteMethod.heuristic⟩

/-- The identifier order is asymmetric. -/
theorem lexLt_asymm : ∀ x y : List Char, lexLt x y = true → lexLt y x = false
  | [], [], h => by cases h
  | [], _ :: _, _ => rfl
  | _ :: _, [], h => by cases h
  | a :: as, b :: bs, h => by
    by_cases hab : a = b
    · subst hab
      rw [lexLt, if_pos rfl] at h ⊢
      exact lexLt_asymm as bs h
    · rw [lexLt, if_neg hab] at h
      rw [lexLt, if_neg (Ne.symm hab)]
      exact decide_eq_false (lt_asymm (of_decide_eq_true h))

/-- The identifier order is total on distinct identifiers. -/
theorem lexLt_total : ∀ x y : List Char, x ≠ y → lexLt x y = true ∨ lexLt y x = true
  | [], [], h => absurd rfl h
  | [], _ :: _, _ => Or.inl rfl
  | _ :: _, [], _ => Or.inr rfl
  | a :: as, b :: bs, h => by
    by_cases hab : a = b
    · subst hab
      have hne : as ≠ bs := by
        intro hh
        exact h (by rw [hh])
      rcases lexLt_total as bs hne with h' | h'
      · left
        rw [lexLt, if_pos rfl]
        exact h'
      · right
        rw [lexLt, if_pos rfl]
        exact h'
    · rcases lt_trichotomy a b with hlt | heq | hgt
      · left
        rw [lexLt, if_neg hab]
        exact decide_eq_true hlt
      · exact absurd heq hab
      · right
        rw [lexLt, if_neg (Ne.symm hab)]
        exact decide_eq_true hgt

/-- C5: when two catalog databases receive identical overlap scores for
a question, the Router's selection step resolves to the same database
in either supply order, and the winner is determined solely by the
stable lexicographic ordering of the two identifiers. -/
theorem router_tiebreak_stable (q : List Char) (e1 e2 : CatalogEntry)
    (hne : e1.id ≠ e2.id) (htie : entryScoreN q e1 = entryScoreN q e2) :
    heurBest [e1, e2] q = heurBest [e2, e1] q ∧
      (heurBest [e1, e2] q).map Prod.fst
        = some (if lexLt e1.id e2.id = true then e1.id else e2.id) := by
  have h12 : heurBest [e1, e2] q
      = if entryScoreN q e1 < entryScoreN q e2
          ∨ (entryScoreN q e2 = entryScoreN q e1 ∧ lexLt e2.id e1.id = true)
        then some (e2.id, entryScoreN q e2) else some (e1.id, entryScoreN q e1) := rfl
  have h21 : heurBest [e2, e1] q
      = if entryScoreN q e2 < entryScoreN q e1
          ∨ (entryScoreN q e1 = entryScoreN q e2 ∧ lexLt e1.id e2.id = true)
        then some (e1.id, entryScoreN q e1) else some (e2.id, entryScoreN q e2) := rfl
  by_cases hl : lexLt e1.id e2.id = true
  · have hl' : lexLt e2.id e1.id = false := lexLt_asymm _ _ hl
    have hc12 : ¬(entryScoreN q e1 < entryScoreN q e2
        ∨ (entryScoreN q e2 = entryScoreN q e1 ∧ lexLt e2.id e1.id = true)) := by
      rintro (hlt | ⟨-, hcon⟩)
      · omega
      · rw [hl'] at hcon
        cases hcon
    have hc21 : entryScoreN q e2 < entryScoreN q e1
        ∨ (entryScoreN q e1 = entryScoreN q e2 ∧ lexLt e1.id e2.id = true) :=
      Or.inr ⟨htie, hl⟩
    rw [h12, h21, if_neg hc12, if_pos hc21, if_pos hl]
    exact ⟨by rw [htie], rfl⟩
  · have hl2 : lexLt e2.id e1.id = true := by
      rcases lexLt_total e1.id e2.id hne with h' | h'
      · exact absurd h' hl
      · exact h'
    have hc12 : entryScoreN q e1 < entryScoreN q e2
        ∨ (entryScoreN q e2 = entryScoreN q e1 ∧ lexLt e2.id e1.id = true) :=
      Or.inr ⟨htie.symm, hl2⟩
    have hc21 : ¬(entryScoreN q e2 < entryScoreN q e1
        ∨ (entryScoreN q e1 = entryScoreN q e2 ∧ lexLt e1.id e2.id = true)) := by
      rintro (hlt | ⟨-, hcon⟩)
      · omega
      · exact hl hcon
    rw [h12, h21, if_pos hc12, if_neg hc21, if_neg hl]
    exact ⟨rfl, rfl⟩

/-- Witness for C5: two zero-scoring databases `beta` and `alpha`
resolve to `alpha` in either order. -/
theorem router_tiebreak_stable_witness :
    ("beta".toList ≠ "alpha".toList ∧
        entryScoreN "hello".toList ⟨"beta".toList, []⟩
          = entryScoreN "hello".toList ⟨"alpha".toList, []⟩) ∧
      (heurBest [⟨"beta".toList, []⟩, ⟨"alpha".toList, []⟩] "hello".toList
          = heurBest [⟨"alpha".toList, []⟩, ⟨"beta".toList, []⟩] "hello".toList ∧
        (heurBest [⟨"beta".toList, []⟩, ⟨"alpha".toList, []⟩] "hello".toList).map Prod.fst
          = some (if lexLt "beta".toList "alpha".toList = true
              then "beta".toList else "alpha".toList)) :=
  ⟨⟨by decide, by decide⟩,
    router_tiebreak_stable "hello".toList ⟨"beta".toList, []⟩ ⟨"alpha".toList, []⟩
      (by decide) (by decide)⟩

/-- The selection fold starting from a seed returns the seed or a list
element. -/
theorem pickStep_foldl_mem :
    ∀ (l : List (List Char × Nat)) (y x : List Char × Nat),
      l.foldl pickStep (some y) = some x → x = y ∨ x ∈ l
  | [], y, x, h => by
    injection h with h
    exact Or.inl h.symm
  | z :: l, y, x, h => by
    rw [List.foldl_cons] at h
    by_cases hc : y.2 < z.2 ∨ (z.2 = y.2 ∧ lexLt z.1 y.1 = true)
    · rw [show pickStep (some y) z = some z from by
        simp only [pickStep, if_pos hc]] at h
      rcases pickStep_foldl_mem l z x h with rfl | hx
      · exact Or.inr (List.mem_cons_self _ _)
      · exact Or.inr (List.mem_cons_of_mem _ hx)
    · rw [show pickStep (some y) z = some y from by
        simp only [pickStep, if_neg hc]] at h
      rcases pickStep_foldl_mem l y x h with rfl | hx
      · exact Or.inl rfl
      · exact Or.inr (List.mem_cons_of_mem _ hx)

/-- The selected entry always comes from the scored list. -/
theorem pickBest_mem (l : List (List Char × Nat)) (x : List Char × Nat)
    (h : pickBest l = some x) : x ∈ l := by
  cases l with
  | nil => cases h
  | cons z l' =>
    unfold pickBest at h
    rw [List.foldl_cons] at h
    rcases pickStep_foldl_mem l' z x h with rfl | hx
    · exact List.mem_cons_self _ _
    · exact List.mem_cons_of_mem _ hx

/-- C6: when no question token scores for any catalog database and no
explicit `DB=<id>` override was supplied, the Router does not fail: it
returns the configured fallback database with confidence 0, so routing
always yields a target database. -/
theorem router_zero_score_fallback (oracle : Option (List Char)) (allowLlm : Bool)
    (threshold : ℚ) (cat : List CatalogEntry) (fallbackId q : List Char)
    (hov : overrideToken q = none)
    (hzero : ∀ e ∈ cat, entryScoreN q e = 0) :
    route oracle allowLlm threshold cat fallbackId q
      = ⟨fallbackId, 0, RouteMethod.heuristic⟩ := by
  unfold route
  rw [show extractOverride q cat = none from by
    unfold extractOverride
    rw [hov]]
  cases hb : heurBest cat q with
  | none => rfl
  | some p =>
    obtain ⟨i, sc⟩ := p
    have hmem := pickBest_mem _ _ hb
    rw [List.mem_map] at hmem
    obtain ⟨e, he, heq⟩ := hmem
    have hsc : sc = 0 := by
      have h0 := hzero e he
      have h2 := congrArg Prod.snd heq
      simp only at h2
      omega
    subst hsc
    rfl

/-- Witness for C6: no token of `"hello there"` scores for the
single-database catalog, and no override is present, so the Router
returns the fallback `credit` with confidence 0. -/
theorem router_zero_score_fallback_witness :
    (overrideToken "hello there".toList = none ∧
        ∀ e ∈ [(⟨"sales".toList, [⟨"orders".toList, ["total".toList]⟩]⟩ : CatalogEntry)],
          entryScoreN "hello there".toList e = 0) ∧
      route none true 1 [⟨"sales".toList, [⟨"orders".toList, ["total".toList]⟩]⟩]
          "credit".toList "hello there".toList
        = ⟨"credit".toList, 0, RouteMethod.heuristic⟩ :=
  ⟨⟨by decide, by decide⟩,
    router_zero_score_fallback none true 1
      [⟨"sales".toList, [⟨"orders".toList, ["total".toList]⟩]⟩]
      "credit".toList "hello there".toList (by decide) (by decide)⟩

/-- C4: the Router is a deterministic function of the question and the
Catalog on the heuristic path — whenever the LLM-assisted fallback is
not consulted (the top confidence reaches the threshold, the fallback
is disabled, or the score is zero), two runs against any two oracle
environments return identical decisions, hence the same `databaseId`
and the same `confidenceScore`. -/
theorem router_deterministic (o1 o2 : Option (List Char)) (allowLlm : Bool)
    (threshold : ℚ) (cat : List CatalogEntry) (fallbackId q : List Char)
    (hpath : ∀ i sc, heurBest cat q = some (i, sc) →
      ¬(confOf q sc < threshold ∧ allowLlm = true)) :
    route o1 allowLlm threshold cat fallbackId q
      = route o2 allowLlm threshold cat fallbackId q := by
  unfold route
  cases extractOverride q cat with
  | some ov => rfl
  | none =>
    cases hb : heurBest cat q with
    | none => rfl
    | some p =>
      obtain ⟨i, sc⟩ := p
      by_cases hsc : sc = 0
      · subst hsc
        rfl
      · simp only [if_neg hsc, if_neg (hpath i sc hb)]

/-- Witness for C4: with the LLM fallback disabled, two different
oracle environments yield the same decision on a concrete catalog. -/
theorem router_deterministic_witness :
    route (some "sales".toList) false 1
        [⟨"credit".toList, [⟨"core_record".toList, ["decidestat".toList]⟩]⟩]
        "credit".toList "credit records".toList
      = route none false 1
        [⟨"credit".toList, [⟨"core_record".toList, ["decidestat".toList]⟩]⟩]
        "credit".toList "credit records".toList :=
  router_deterministic (some "sales".toList) none false 1
    [⟨"credit".toList, [⟨"core_record".toList, ["decidestat".toList]⟩]⟩]
    "credit".toList "credit records".toList
    (fun i sc h => by
      rintro ⟨-, hcon⟩
      cases hcon)

/-!
## Execution Engine

Modelled from the spec: the Execution Engine of
`pipelines/10_sqlite_router_nl2sql.py` is not in the source snapshot.
Per §4.6 of the specification it executes the Guard's normalized
statement and captures at most the statement's `LIMIT` many rows,
possibly further capped by the underlying engine's own row cap, and
reports `truncated` when rows were cut off.  The underlying engine is
abstracted by the full row sequence the query would produce and an
optional engine-enforced row cap. -/

/-- Result of a successful execution: column names, the captured rows,
and the truncation flag. -/
structure ExecutionResult (α : Type) where
  columns : List (List Char)
  rows : List α
  truncated : Bool

/-- The applied row limit of a normalized statement: its trailing
`LIMIT` value, or the default when absent. -/
def appliedLimit (dflt : Nat) (sql : List Char) : Nat :=
  (parseTrailingLimit sql).getD dflt

/-- The effective row bound: the statement's applied limit, further
capped by the engine's own row cap when one is enforced. -/
def effectiveLimit (dflt : Nat) (engineCap : Option Nat) (sql : List Char) : Nat :=
  match engineCap with
  | some c => Nat.min (appliedLimit dflt sql) c
  | none => appliedLimit dflt sql

/-- Modelled from the spec: the Execution Engine of §4.6 — capture the
rows up to the effective bound and flag truncation when the query
would have produced more. -/
def execute {α : Type} (dflt : Nat) (engineCap : Option Nat)
    (cols : List (List Char)) (sql : List Char) (allRows : List α) :
    ExecutionResult α :=
  { columns := cols
    rows := allRows.take (effectiveLimit dflt engineCap sql)
    truncated := decide (effectiveLimit dflt engineCap sql < allRows.length) }

/-- C7: every successful ExecutionResult obtained from a
Guard-accepted statement returns at most `MAX_ROWS_HARD` rows, and is
flagged `truncated = true` whenever the query's full row count exceeds
the applied `LIMIT` — also when the underlying engine enforces its own
lower row cap. -/
theorem execute_row_bound {α : Type} (dflt hard : Nat) (hdh : dflt ≤ hard)
    (s out : List Char) (hacc : sqlGuard dflt hard s = SafetyVerdict.ok out)
    (engineCap : Option Nat) (cols : List (List Char)) (allRows : List α) :
    (execute dflt engineCap cols out allRows).rows.length ≤ hard ∧
      (appliedLimit dflt out < allRows.length →
        (execute dflt engineCap cols out allRows).truncated = true) ∧
      (effectiveLimit dflt engineCap out < allRows.length →
        (execute dflt engineCap cols out allRows).truncated = true) := by
  have hout := sqlGuard_ok_eq dflt hard s out hacc
  obtain ⟨v, hv, hvle⟩ := clamp_parse_le dflt hard hdh s
  rw [← hout] at hv
  have happ : appliedLimit dflt out = v := by
    unfold appliedLimit
    rw [hv]
    rfl
  have heff : effectiveLimit dflt engineCap out ≤ appliedLimit dflt out := by
    unfold effectiveLimit
    cases engineCap with
    | none => exact Nat.le_refl _
    | some c => exact Nat.min_le_left _ _
  refine ⟨?_, ?_, ?_⟩
  · show (allRows.take (effectiveLimit dflt engineCap out)).length ≤ hard
    rw [List.length_take]
    have := Nat.min_le_left (effectiveLimit dflt engineCap out) allRows.length
    omega
  · intro hlt
    show decide (effectiveLimit dflt engineCap out < allRows.length) = true
    exact decide_eq_true (by omega)
  · intro hlt
    show decide (effectiveLimit dflt engineCap out < allRows.length) = true
    exact decide_eq_true hlt

/-- Witness for C7: a three-row query under `LIMIT 2` returns two rows
and is flagged truncated. -/
theorem execute_row_bound_witness :
    (2 ≤ 1000 ∧ sqlGuard 2 1000 "select 1".toList
        = SafetyVerdict.ok "select 1 LIMIT 2".toList) ∧
      ((execute 2 none [] "select 1 LIMIT 2".toList [10, 20, 30]).rows.length ≤ 1000 ∧
        (appliedLimit 2 "select 1 LIMIT 2".toList < [10, 20, 30].length →
          (execute 2 none [] "select 1 LIMIT 2".toList [10, 20, 30]).truncated = true) ∧
        (effectiveLimit 2 none "select 1 LIMIT 2".toList < [10, 20, 30].length →
          (execute 2 none [] "select 1 LIMIT 2".toList [10, 20, 30]).truncated = true)) :=
  ⟨⟨by decide, by decide⟩,
    execute_row_bound 2 1000 (by decide) "select 1".toList "select 1 LIMIT 2".toList
      (by decide) none [] [10, 20, 30]⟩

/-!
## Theme customization (`openwebui-custom/custom.js`)

Embedded from the source: `THEME_MODES`, `resolveTheme`, the class
mutation of `applyTheme` (`classList.remove("dark", "light")` followed
by `classList.add(resolved)`), and the theme button's click handler
(`THEME_MODES[(idx + 1 + THEME_MODES.length) % THEME_MODES.length] ||
THEME_MODES[0]`).  The media query `prefers-color-scheme: dark` is the
boolean `prefersDark`; the document root's class list is a list of
strings. -/

/-- The fixed cycle of theme modes (custom.js line 11). -/
def THEME_MODES : List String := ["light", "dark", "system"]

/-- resolveTheme (custom.js lines 49-52): explicit `dark`/`light` pass
through, anything else resolves by the media query. -/
def resolveTheme (prefersDark : Bool) (theme : String) : String :=
  if theme = "dark" ∨ theme = "light" then theme
  else if prefersDark then "dark" else "light"

/-- The class-list effect of applyTheme (custom.js lines 54-65): remove
`dark` and `light`, then add the resolved theme. -/
def applyThemeClasses (prefersDark : Bool) (theme : String)
    (classes : List String) : List String :=
  (classes.filter (fun c => !(c == "dark" || c == "light")))
    ++ [resolveTheme prefersDark theme]

/-- JavaScript `Array.prototype.indexOf` on a string array: first index
of the element, `-1` when absent. -/
def jsIndexOf (t : String) : List String → Int
  | [] => -1
  | x :: xs =>
    if x = t then 0
    else if jsIndexOf t xs = -1 then -1 else jsIndexOf t xs + 1

/-- The theme button's click handler (custom.js lines 442-449): advance
to `THEME_MODES[(idx + 1 + THEME_MODES.length) % THEME_MODES.length]`,
falling back to `THEME_MODES[0]` (that is, `"light"`) if the lookup
were to miss. -/
def nextTheme (current : String) : String :=
  match THEME_MODES.get? ((jsIndexOf current THEME_MODES + 1
      + (THEME_MODES.length : Int)) % (THEME_MODES.length : Int)).toNat with
  | some s => s
  | none => "light"

/-- C8: `resolveTheme` returns exactly `"dark"` or `"light"` for every
stored theme value — never `"system"` or anything else — and
`applyTheme` therefore always leaves the document root carrying exactly
one of the two classes `"dark"` and `"light"`. -/
theorem resolveTheme_binary (prefersDark : Bool) (theme : String)
    (classes : List String) :
    (resolveTheme prefersDark theme = "dark"
        ∨ resolveTheme prefersDark theme = "light") ∧
      (applyThemeClasses prefersDark theme classes).count "dark"
        + (applyThemeClasses prefersDark theme classes).count "light" = 1 := by
  have hres : resolveTheme prefersDark theme = "dark"
      ∨ resolveTheme prefersDark theme = "light" := by
    unfold resolveTheme
    by_cases h : theme = "dark" ∨ theme = "light"
    · rw [if_pos h]
      exact h
    · rw [if_neg h]
      cases prefersDark
      · right
        rfl
      · left
        rfl
  refine ⟨hres, ?_⟩
  unfold applyThemeClasses
  have hd : (classes.filter (fun c => !(c == "dark" || c == "light"))).count "dark" = 0 := by
    rw [List.count_eq_zero]
    intro hmem
    rw [List.mem_filter] at hmem
    have := hmem.2
    simp at this
  have hl : (classes.filter (fun c => !(c == "dark" || c == "light"))).count "light" = 0 := by
    rw [List.count_eq_zero]
    intro hmem
    rw [List.mem_filter] at hmem
    have := hmem.2
    simp at this
  rcases hres with h | h <;>
    rw [List.count_append, List.count_append, h, hd, hl] <;> decide

/-- C9: one click advances the stored theme along the fixed cycle
`light → dark → system → light`, so three clicks restore any stored
theme that is one of the three modes, and a stored value outside the
list (index `-1`) advances to `"light"`. -/
theorem nextTheme_cycle :
    nextTheme "light" = "dark" ∧ nextTheme "dark" = "system"
        ∧ nextTheme "system" = "light" ∧
      (∀ t ∈ THEME_MODES, nextTheme (nextTheme (nextTheme t)) = t) ∧
      (∀ t, t ∉ THEME_MODES → nextTheme t = "light") := by
  refine ⟨by decide, by decide, by decide, by decide, ?_⟩
  intro t ht
  have h1 : ("light" : String) ≠ t := fun h => ht (h ▸ (by decide : "light" ∈ THEME_MODES))
  have h2 : ("dark" : String) ≠ t := fun h => ht (h ▸ (by decide : "dark" ∈ THEME_MODES))
  have h3 : ("system" : String) ≠ t := fun h => ht (h ▸ (by decide : "system" ∈ THEME_MODES))
  have hidx : jsIndexOf t THEME_MODES = -1 := by
    simp [THEME_MODES, jsIndexOf, h1, h2, h3]
  unfold nextTheme
  rw [hidx]
  rfl

/-- Witness for C9: three clicks from `"dark"` return to `"dark"`, and
an unknown stored value advances to `"light"`. -/
theorem nextTheme_cycle_witness :
    nextTheme (nextTheme (nextTheme "dark")) = "dark" ∧ nextTheme "blue" = "light" :=
  ⟨nextTheme_cycle.2.2.2.1 "dark" (by decide),
    nextTheme_cycle.2.2.2.2 "blue" (by decide)⟩

/-!
## GPU auto-start script (`start_gpu_auto.sh`)

Embedded from the source: the script first selects a compose command
(`docker compose`, else `docker-compose`, else it prints an error and
exits 1), reads `uname -s`, and on `Darwin` runs `start_cpu` and exits
with its status; on any other system it tries the GPU compose override
(`try_start_gpu`), keeping it on success (exit 0) or tearing it down
(`cleanup_gpu`) and falling back to `start_cpu` on failure.  A run is
abstracted by its environment — the `uname -s` output, whether a
compose command exists, and the exit codes the two compose invocations
would return — and its observable outcome: the script's exit status and
the sequence of compose invocations. -/

/-- Environment of one run of the script. -/
structure ShellEnv where
  unameS : String
  composeAvailable : Bool
  gpuExit : Nat
  cpuExit : Nat

/-- A compose invocation the script can make: `start_cpu`,
`try_start_gpu` (the docker-compose.gpu.yml override), or
`cleanup_gpu`. -/
inductive ComposeCall where
  | cpu
  | gpu
  | gpuDown
deriving DecidableEq

/-- The script's control flow: exit status and the compose invocations
made, in order. -/
def startGpuAuto (env : ShellEnv) : Nat × List ComposeCall :=
  if env.composeAvailable = false then (1, [])
  else if env.unameS = "Darwin" then (env.cpuExit, [ComposeCall.cpu])
  else if env.gpuExit = 0 then (0, [ComposeCall.gpu])
  else (env.cpuExit, [ComposeCall.gpu, ComposeCall.gpuDown, ComposeCall.cpu])

/-- Counterexample to C10 as stated: on a Darwin host with no compose
command the script exits 1 without calling `start_cpu` at all, so "the
script calls start_cpu directly and exits with start_cpu's exit status"
fails for that run (here `cpuExit = 0 ≠ 1`). -/
theorem startGpuAuto_darwin_counterexample :
    (⟨"Darwin", false, 0, 0⟩ : ShellEnv).unameS = "Darwin" ∧
      startGpuAuto ⟨"Darwin", false, 0, 0⟩ = (1, []) ∧
      ¬(ComposeCall.cpu ∈ (startGpuAuto ⟨"Darwin", false, 0, 0⟩).2 ∧
          (startGpuAuto ⟨"Darwin", false, 0, 0⟩).1
            = (⟨"Darwin", false, 0, 0⟩ : ShellEnv).cpuExit) := by
  refine ⟨rfl, rfl, ?_⟩
  rintro ⟨hmem, -⟩
  cases hmem

/-- C10 (amended): on a Darwin host the GPU compose override is never
invoked — neither `try_start_gpu` nor `cleanup_gpu` runs — and whenever
a compose command is available the script runs exactly `start_cpu` and
exits with `start_cpu`'s exit status; without a compose command it
exits 1 before any compose invocation. -/
theorem startGpuAuto_darwin (env : ShellEnv) (hdar : env.unameS = "Darwin") :
    ComposeCall.gpu ∉ (startGpuAuto env).2 ∧
      ComposeCall.gpuDown ∉ (startGpuAuto env).2 ∧
      (env.composeAvailable = true →
        startGpuAuto env = (env.cpuExit, [ComposeCall.cpu])) ∧
      (env.composeAvailable = false → startGpuAuto env = (1, [])) := by
  unfold startGpuAuto
  cases hca : env.composeAvailable
  · rw [if_pos rfl]
    refine ⟨by decide, by decide, ?_, fun _ => rfl⟩
    intro hcon
    cases hcon
  · rw [if_neg (by decide), if_pos hdar]
    refine ⟨by simp, by simp, fun _ => rfl, ?_⟩
    intro hcon
    cases hcon

/-- Witness for the amended C10: a Darwin host with compose available
and `start_cpu` exiting 7 runs exactly `start_cpu` and exits 7. -/
theorem startGpuAuto_darwin_witness :
    ComposeCall.gpu ∉ (startGpuAuto ⟨"Darwin", true, 0, 7⟩).2 ∧
      ComposeCall.gpuDown ∉ (startGpuAuto ⟨"Darwin", true, 0, 7⟩).2 ∧
      ((⟨"Darwin", true, 0, 7⟩ : ShellEnv).composeAvailable = true →
        startGpuAuto ⟨"Darwin", true, 0, 7⟩ = ((⟨"Darwin", true, 0, 7⟩ : ShellEnv).cpuExit,
          [ComposeCall.cpu])) ∧
      ((⟨"Darwin", true, 0, 7⟩ : ShellEnv).composeAvailable = false →
        startGpuAuto ⟨"Darwin", true, 0, 7⟩ = (1, [])) :=
  startGpuAuto_darwin ⟨"Darwin", true, 0, 7⟩ rfl
